import Mathlib

set_option maxRecDepth 4000

/-!
Shallow embedding of the ROSOMAXA adaptive population manager
(`src/vrp-core/src/solver/population/rosomaxa.rs`) and of the
sequence-exchange local operator
(`src/vrp-core/src/solver/mutation/local/exchange_sequence.rs`).

Real-valued quantities are modelled over the rationals. Collaborators whose
source is not under src (the elitism archive, the GSOM network internals, the
PRNG, the statistics helpers) are modelled from the specification; each such
definition carries a doc comment starting with `Modelled from the spec:`.
-/

/-- Fitness vector of a solution: the ordered sequence of real-valued fitness
components, lower is better lexicographically. -/
abbrev Fitness := List ℚ

/-- Modelled from the spec: a solution is opaque apart from its fitness
components and its five real-valued descriptor features (load variance,
customer-count deviation, duration mean, distance mean, distance-gravity mean).
Deep copy is the identity in this value-semantics model. -/
structure Individual where
  fitness : Fitness
  loadVariance : ℚ
  customersDeviation : ℚ
  durationMean : ℚ
  distanceMean : ℚ
  distanceGravityMean : ℚ
deriving DecidableEq

/-- Modelled from the spec: the fixed epsilon below which two fitness
components compare equal. -/
def EPSILON : ℚ := 1 / 1000000

/-- Modelled from the spec: scalar comparator (source `compare_floats`, in the
utils crate, not under src); the NaN cases of the source cannot arise over ℚ. -/
def compare_floats (a b : ℚ) : Ordering :=
  if a < b then Ordering.lt else if b < a then Ordering.gt else Ordering.eq

/-- Modelled from the spec: one fitness component comparison with epsilon
tolerance. -/
def cmp_component (a b : ℚ) : Ordering :=
  if |a - b| < EPSILON then Ordering.eq
  else if a < b then Ordering.lt else Ordering.gt

/-- Modelled from the spec: strict lexicographic order on fitness components
with per-component epsilon tolerance. -/
def cmp_fitness : Fitness → Fitness → Ordering
  | [], [] => Ordering.eq
  | [], _ :: _ => Ordering.lt
  | _ :: _, [] => Ordering.gt
  | a :: t1, b :: t2 =>
    let c := cmp_component a b
    if c = Ordering.eq then cmp_fitness t1 t2 else c

/-- Modelled from the spec: two solutions are same-fitness when all fitness
components compare equal under the tolerance. -/
def is_same_fitness (a b : Individual) : Bool :=
  cmp_fitness a.fitness b.fitness == Ordering.eq

/-- Modelled from the spec: the injected PRNG, as a pure linear congruential
generator whose state is threaded explicitly through every stochastic
operation. -/
abbrev Rng := ℕ

/-- One step of the PRNG model. -/
def rngStep (s : Rng) : ℕ × Rng :=
  let t := (1103515245 * s + 12345) % 2147483648
  (t, t)

/-- Modelled from the spec: `uniform_int(low, high)` returns an integer in
[low, high). This total variant returns `low` on an empty range; the call
sites in the manager always supply a non-empty range. -/
def uniform_int (lo hi : ℕ) (s : Rng) : ℕ × Rng :=
  let p := rngStep s
  (if lo < hi then lo + p.1 % (hi - lo) else lo, p.2)

/-- Helper for the shuffle model: repeatedly move a uniformly drawn element of
the remaining list to the accumulator. -/
def shuffleGo {α : Type} : ℕ → List α → List α → Rng → List α × Rng
  | 0, _, acc, s => (acc.reverse, s)
  | fuel + 1, rem, acc, s =>
    match rem with
    | [] => (acc.reverse, s)
    | _ :: _ =>
      let (i, s1) := uniform_int 0 rem.length s
      match rem.get? i with
      | some x => shuffleGo fuel (rem.eraseIdx i) (x :: acc) s1
      | none => (acc.reverse, s1)

/-- Modelled from the spec: a Fisher-Yates shuffle drawing only from the
injected PRNG. -/
def shuffle {α : Type} (l : List α) (s : Rng) : List α × Rng :=
  shuffleGo l.length l [] s

/-- Modelled from the spec: the bounded, fitness-ranked elitism archive
(source file not under src). `members` is kept sorted by fitness, best
first. -/
structure Elitism where
  max_size : ℕ
  selection_size : ℕ
  members : List Individual
deriving DecidableEq

/-- Modelled from the spec: a fresh empty archive with the given capacity and
selection size. -/
def Elitism.new (max_size selection_size : ℕ) : Elitism :=
  ⟨max_size, selection_size, []⟩

/-- Number of archive members. -/
def Elitism.size (e : Elitism) : ℕ := e.members.length

/-- The fitness comparator exposed by the archive. -/
def Elitism.cmp (_e : Elitism) (a b : Individual) : Ordering :=
  cmp_fitness a.fitness b.fitness

/-- Not-worse order on individuals used to keep the archive sorted. -/
def fitLE (a b : Individual) : Prop :=
  cmp_fitness a.fitness b.fitness ≠ Ordering.gt

instance : DecidableRel fitLE := fun a b =>
  inferInstanceAs (Decidable (cmp_fitness a.fitness b.fitness ≠ Ordering.gt))

/-- Modelled from the spec: insertion of a candidate succeeds iff it is not
same-fitness as any member and either the archive is not full or the candidate
is strictly better than the worst member; on success the candidate is inserted
in sorted position and the worst member is evicted when the archive is full. -/
def Elitism.add (e : Elitism) (ind : Individual) : Bool × Elitism :=
  if e.members.any (fun m => is_same_fitness ind m) then (false, e)
  else if e.members.length < e.max_size then
    (true, { e with members := List.orderedInsert fitLE ind e.members })
  else
    match e.members.getLast? with
    | some worst =>
      if cmp_fitness ind.fitness worst.fitness == Ordering.lt then
        (true, { e with members := (List.orderedInsert fitLE ind e.members).dropLast })
      else (false, e)
    | none => (false, e)

/-- Modelled from the spec: the first element of the lazy `select` (and of
`ranked`) is the best member; obtaining it draws nothing from the PRNG. -/
def Elitism.select_first (e : Elitism) : Option Individual :=
  e.members.head?

/-- Helper for the archive selection model: `n` uniform draws with replacement
from a pool. -/
def drawMany (pool : List Individual) : ℕ → Rng → List Individual × Rng
  | 0, s => ([], s)
  | n + 1, s =>
    let p := uniform_int 0 pool.length s
    let q := drawMany pool n p.2
    (match pool.get? p.1 with
     | some x => x :: q.1
     | none => q.1, q.2)

/-- Modelled from the spec: `select` yields at most `selection_size`
references; the first is the best member; the remaining ones are uniform
random draws with replacement from the remaining members; a single member is
yielded repeatedly up to `selection_size`. -/
def Elitism.select (e : Elitism) (s : Rng) : List Individual × Rng :=
  match e.members with
  | [] => ([], s)
  | best :: rest =>
    if e.selection_size = 0 then ([], s)
    else if rest.isEmpty then (List.replicate e.selection_size best, s)
    else
      let q := drawMany rest (e.selection_size - 1) s
      (best :: q.1, q.2)

/-- Modelled from the spec: `drain` empties the archive and returns its
contents. -/
def Elitism.drain (e : Elitism) : List Individual × Elitism :=
  (e.members, { e with members := [] })

/-- The weight-vector wrapper the manager feeds into the network: the five
descriptor features of the individual (source `IndividualInput`). -/
structure IndividualInput where
  weights : List ℚ
  individual : Individual
deriving DecidableEq

/-- The five descriptor features, in source order (source
`IndividualInput::get_weights`). -/
def IndividualInput.get_weights (individual : Individual) : List ℚ :=
  [individual.loadVariance, individual.customersDeviation, individual.durationMean,
   individual.distanceMean, individual.distanceGravityMean]

/-- Source `IndividualInput::new`. -/
def IndividualInput.new (individual : Individual) : IndividualInput :=
  ⟨IndividualInput.get_weights individual, individual⟩

/-- Modelled from the spec: relative distance of two value sequences is the
Euclidean norm of componentwise (a-b)/max(|a|,|b|,eps); the final square root
is elided (the squared norm is used), which preserves every comparison the
manager makes with it. -/
def relative_distance (a b : List ℚ) : ℚ :=
  ((a.zip b).map (fun p =>
    let m := max (max |p.1| |p.2|) EPSILON
    ((p.1 - p.2) / m) * ((p.1 - p.2) / m))).sum

/-- Modelled from the spec: a GSOM node holds an integer coordinate, a weight
vector, a hit count, an error accumulator, a last-hit generation, and a
storage bucket (here: the per-node elitism archive of `IndividualStorage`). -/
structure NetworkNode where
  coord : ℤ × ℤ
  weights : List ℚ
  error : ℚ
  hits : ℕ
  last_hit : ℕ
  storage : Elitism
deriving DecidableEq

/-- Modelled from the spec: the GSOM network with its construction-time
parameters, the derived growth threshold, the storage-factory capacity, and
the node set. -/
structure Network where
  spread_factor : ℚ
  reduction_factor : ℚ
  distribution_factor : ℚ
  learning_rate : ℚ
  hit_memory : ℕ
  growth_threshold : ℚ
  node_size : ℕ
  nodes : List NetworkNode
deriving DecidableEq

/-- Modelled from the spec: integer floor of log2 on a positive rational, used
for the growth threshold GT = -D*log2(spread_factor); exact for power-of-two
spread factors such as the default 0.5. -/
def qlog2 (q : ℚ) : ℚ :=
  (Nat.log 2 q.num.toNat : ℚ) - (Nat.log 2 q.den : ℚ)

/-- Squared Euclidean distance between weight vectors; the square root of the
source is elided, which preserves the best-matching-unit choice. -/
def dist2 (a b : List ℚ) : ℚ :=
  ((a.zip b).map (fun p => (p.1 - p.2) * (p.1 - p.2))).sum

/-- Lexicographic order on grid coordinates, used for BMU tie-breaking. -/
def coordLt (a b : ℤ × ℤ) : Bool :=
  a.1 < b.1 || (a.1 == b.1 && a.2 < b.2)

/-- Modelled from the spec: the network constructor creates four initial nodes
at (0,0),(0,1),(1,0),(1,1) seeded with the four input weight vectors, each
with a fresh default storage of capacity `node_size`. -/
def Network.new (i1 i2 i3 i4 : IndividualInput)
    (spread reduction distribution learning : ℚ) (hit_mem node_cap : ℕ) : Network :=
  let dim := i1.weights.length
  let mkNode := fun (c : ℤ × ℤ) (i : IndividualInput) =>
    ({ coord := c, weights := i.weights, error := 0, hits := 0, last_hit := 0,
       storage := Elitism.new node_cap node_cap } : NetworkNode)
  { spread_factor := spread, reduction_factor := reduction,
    distribution_factor := distribution, learning_rate := learning,
    hit_memory := hit_mem, growth_threshold := -(dim : ℚ) * qlog2 spread,
    node_size := node_cap,
    nodes := [mkNode (0, 0) i1, mkNode (0, 1) i2, mkNode (1, 0) i3, mkNode (1, 1) i4] }

/-- The four 4-connected neighbour coordinates of a grid position. -/
def neighborCoords (c : ℤ × ℤ) : List (ℤ × ℤ) :=
  [(c.1 - 1, c.2), (c.1 + 1, c.2), (c.1, c.2 - 1), (c.1, c.2 + 1)]

/-- Modelled from the spec: the best-matching unit is the node whose weight
vector minimizes the Euclidean distance to the input, ties broken by ascending
coordinate. -/
def Network.find_bmu (net : Network) (input : IndividualInput) : Option NetworkNode :=
  net.nodes.foldl (fun best n =>
    match best with
    | none => some n
    | some b =>
      let db := dist2 b.weights input.weights
      let dn := dist2 n.weights input.weights
      if dn < db then some n
      else if db < dn then some b
      else if coordLt n.coord b.coord then some n else some b) none

/-- Componentwise weight update toward the input with the given rate. -/
def update_weights (w v : List ℚ) (rate : ℚ) : List ℚ :=
  (w.zip v).map (fun p => p.1 + rate * (p.2 - p.1))

/-- Whether a node with the given coordinate exists in the node list. -/
def hasCoord (nodes : List NetworkNode) (c : ℤ × ℤ) : Bool :=
  nodes.any (fun n => n.coord == c)

/-- Modelled from the spec: the growth check. If the BMU error accumulator
exceeds the growth threshold, either distribute the error to the existing
neighbours (all four present) or grow new nodes at the missing neighbour
positions, with weights extrapolated from the BMU and the opposite neighbour;
the BMU error is reset on growth. -/
def Network.growth_check (net : Network) (bmuCoord : ℤ × ℤ) (time : ℕ) : Network :=
  match net.nodes.find? (fun n => n.coord == bmuCoord) with
  | none => net
  | some bmu =>
    if bmu.error ≤ net.growth_threshold then net
    else
      let missing := (neighborCoords bmuCoord).filter (fun c => !hasCoord net.nodes c)
      if missing.isEmpty then
        let share := net.reduction_factor * bmu.error / 4
        { net with nodes := net.nodes.map (fun n =>
            if n.coord == bmuCoord then
              { n with error := (1 - net.reduction_factor) * n.error }
            else if (neighborCoords bmuCoord).contains n.coord then
              { n with error := n.error + share }
            else n) }
      else
        let grown := missing.map (fun c =>
          let opposite := (2 * bmuCoord.1 - c.1, 2 * bmuCoord.2 - c.2)
          let w :=
            match net.nodes.find? (fun n => n.coord == opposite) with
            | some opp => (bmu.weights.zip opp.weights).map (fun p => 2 * p.1 - p.2)
            | none => bmu.weights
          ({ coord := c, weights := w, error := 0, hits := 0, last_hit := time,
             storage := Elitism.new net.node_size net.node_size } : NetworkNode))
        { net with nodes := (net.nodes.map (fun n =>
            if n.coord == bmuCoord then { n with error := 0 } else n)) ++ grown }

/-- Modelled from the spec: online insertion. Find the BMU, move the BMU and
its present 4-neighbours toward the input (neighbours with the learning rate
scaled by the distribution factor), append the input to the BMU storage, add
the pre-update distance to the BMU error, stamp and count the hit, then run
the growth check. An empty network is a fatal contract violation in the
source; this model returns the network unchanged there. -/
def Network.store (net : Network) (input : IndividualInput) (time : ℕ) : Network :=
  match net.find_bmu input with
  | none => net
  | some bmu =>
    let d := dist2 bmu.weights input.weights
    let nbs := neighborCoords bmu.coord
    let nodes := net.nodes.map (fun n =>
      if n.coord == bmu.coord then
        { n with
          weights := update_weights n.weights input.weights net.learning_rate,
          error := n.error + d, hits := n.hits + 1, last_hit := time,
          storage := (n.storage.add input.individual).2 }
      else if nbs.contains n.coord then
        let rate := net.learning_rate * net.distribution_factor
        { n with weights := update_weights n.weights input.weights rate }
      else n)
    Network.growth_check { net with nodes := nodes } bmu.coord time

/-- The four corners of the bounding box of the node coordinates. -/
def boundingCorners (nodes : List NetworkNode) : List (ℤ × ℤ) :=
  match nodes.map (fun n => n.coord) with
  | [] => []
  | c :: cs =>
    let xs := (c :: cs).map Prod.fst
    let ys := (c :: cs).map Prod.snd
    let minX := xs.foldl min c.1
    let maxX := xs.foldl max c.1
    let minY := ys.foldl min c.2
    let maxY := ys.foldl max c.2
    [(minX, minY), (minX, maxY), (maxX, minY), (maxX, maxY)]

/-- Modelled from the spec: compaction removes every node failing the retain
predicate except the four corners of the bounding box, and re-stores the
drained storage contents of the removed nodes back into the network. The
topological healing step (synthetic bridge nodes, bounded by the rebalance
count) is elided, as no claim inspects it. -/
def Network.optimize (net : Network) (_rebalance_count : ℕ)
    (keep : NetworkNode → Bool) : Network :=
  let corners := boundingCorners net.nodes
  let retained := net.nodes.filter (fun n => keep n || corners.contains n.coord)
  let removed := net.nodes.filter (fun n => !(keep n || corners.contains n.coord))
  let net1 := { net with nodes := retained }
  removed.foldl (fun acc n =>
    n.storage.members.foldl (fun acc2 ind =>
      Network.store acc2 (IndividualInput.new ind) n.last_hit) acc) net1

/-- Rosomaxa configuration settings (source `RosomaxaConfig`). -/
structure RosomaxaConfig where
  selection_size : ℕ
  elite_size : ℕ
  node_size : ℕ
  spread_factor : ℚ
  reduction_factor : ℚ
  distribution_factor : ℚ
  learning_rate : ℚ
  hit_memory : ℕ
  exploration_ratio : ℚ
deriving DecidableEq

/-- Modelled from the spec: the per-generation statistics record consumed by
`on_generation`. -/
structure Statistics where
  generation : ℕ
  termination_estimate : ℚ
deriving DecidableEq

/-- The phase variant of the manager (source `RosomaxaPhases`). In the source
the Exploration populations list aliases the node storages by shared
reference; under the sequential contract of spec section 5 this model takes a
value snapshot instead. -/
inductive RosomaxaPhases where
  | Initial (individuals : List Individual)
  | Exploration (time : ℕ) (network : Network) (populations : List Elitism)
  | Exploitation
deriving DecidableEq

/-- The selection-phase tag surfaced to callers (source `SelectionPhase`). -/
inductive SelectionPhase where
  | Initial
  | Exploration
  | Exploitation
deriving DecidableEq

/-- The Rosomaxa population manager (source `Rosomaxa`). The shared PRNG
handle is modelled as an explicit state field. -/
structure Rosomaxa where
  random : Rng
  config : RosomaxaConfig
  elite : Elitism
  phase : RosomaxaPhases
deriving DecidableEq

/-- Source `Rosomaxa::new`: validates the configuration and builds the manager
with an empty elite archive in the Initial phase. -/
def Rosomaxa.new (config : RosomaxaConfig) (random : Rng) : Except Unit Rosomaxa :=
  if config.elite_size < 2 || config.node_size < 2 || config.selection_size < 4 then
    Except.error ()
  else
    Except.ok
      { random := random, config := config,
        elite := Elitism.new config.elite_size config.selection_size,
        phase := RosomaxaPhases.Initial [] }

/-- Source `Rosomaxa::new_with_fallback`: the Rosomaxa manager, or on
construction failure a pure elitism population with the elite size as
capacity and the same selection size. -/
def Rosomaxa.new_with_fallback (config : RosomaxaConfig) (random : Rng) :
    Rosomaxa ⊕ Elitism :=
  let selection_size := config.selection_size
  let max_population_size := config.elite_size
  match Rosomaxa.new config random with
  | Except.ok population => Sum.inl population
  | Except.error _ => Sum.inr (Elitism.new max_population_size selection_size)

/-- Source `Rosomaxa::is_improvement`: accept when the archive is empty, or
when the individual compares not-greater than the archive best under the
fitness comparator and is not same-fitness as that best. -/
def Rosomaxa.is_improvement (st : Rosomaxa) (individual : Individual) : Bool :=
  match st.elite.members.head? with
  | some best =>
    if st.elite.cmp individual best ≠ Ordering.gt then !is_same_fitness individual best
    else false
  | none => true

/-- The phase-routing match block of source `Rosomaxa::add_individual`: a deep
copy of the individual goes into the sink of the current phase. -/
def Rosomaxa.route_individual (st : Rosomaxa) (individual : Individual) : Rosomaxa :=
  match st.phase with
  | RosomaxaPhases.Initial individuals =>
    if individuals.length < 4 then
      { st with phase := RosomaxaPhases.Initial (individuals ++ [individual]) }
    else st
  | RosomaxaPhases.Exploration time network populations =>
    let network1 := network.store (IndividualInput.new individual) time
    { st with phase := RosomaxaPhases.Exploration time network1 populations }
  | RosomaxaPhases.Exploitation => st

/-- Source `Rosomaxa::add_individual`: route a deep copy into the sink of the
current phase, then attempt archive insertion guarded by the improvement
test. -/
def Rosomaxa.add_individual (st : Rosomaxa) (individual : Individual) : Bool × Rosomaxa :=
  let st1 := st.route_individual individual
  if st1.is_improvement individual then
    let r := st1.elite.add individual
    (r.1, { st1 with elite := r.2 })
  else (false, st1)

/-- Source `Rosomaxa::add_all` (via `Population::add_all`): the literal
translation of `fold(false, |acc, individual| acc || add_individual(..))`,
where the Rust `||` short-circuits: once the accumulator is true, later
individuals are not passed to `add_individual` at all. -/
def Rosomaxa.add_all (st : Rosomaxa) (individuals : List Individual) : Bool × Rosomaxa :=
  individuals.foldl (fun acc individual =>
    if acc.1 then acc else Rosomaxa.add_individual acc.2 individual) (false, st)

/-- Source `Rosomaxa::create_network`: wrap the bootstrap individuals as
inputs and build the network. The source panics unless exactly four
individuals are supplied; the bootstrap list never exceeds four (the add path
caps it), so this model reads the first four. -/
def Rosomaxa.create_network (config : RosomaxaConfig) (individuals : List Individual) : Network :=
  match individuals with
  | a :: b :: c :: d :: _ =>
    Network.new (IndividualInput.new a) (IndividualInput.new b)
      (IndividualInput.new c) (IndividualInput.new d)
      config.spread_factor config.reduction_factor config.distribution_factor
      config.learning_rate config.hit_memory config.node_size
  | _ =>
    let z : Individual := ⟨[], 0, 0, 0, 0, 0⟩
    Network.new (IndividualInput.new z) (IndividualInput.new z)
      (IndividualInput.new z) (IndividualInput.new z)
      config.spread_factor config.reduction_factor config.distribution_factor
      config.learning_rate config.hit_memory config.node_size

/-- Source `Rosomaxa::fill_populations`: replace the populations list with the
node storage archives of positive size, shuffled with the injected PRNG. -/
def Rosomaxa.fill_populations (network : Network) (random : Rng) :
    List Elitism × Rng :=
  let populations := (network.nodes.map (fun n => n.storage)).filter (fun p => 0 < p.size)
  shuffle populations random

/-- The per-node distance used by `optimize_network`: the relative distance
between the archive best fitness and the fitness of the best stored solution
of the node, undefined for an empty storage (source closure `get_distance`). -/
def Rosomaxa.get_node_distance (best_fitness : List ℚ) (n : NetworkNode) : Option ℚ :=
  match n.storage.select_first with
  | some individual => some (relative_distance best_fitness individual.fitness)
  | none => none

/-- Insert a value into a descending-sorted list (model of the source
`sort_by(|a, b| compare_floats(*b, *a))`, a stable descending sort). -/
def insertDesc (x : ℚ) : List ℚ → List ℚ
  | [] => [x]
  | y :: t => if y < x then x :: y :: t else y :: insertDesc x t

/-- Descending insertion sort on rational values. -/
def sortDesc (l : List ℚ) : List ℚ :=
  l.foldr insertDesc []

/-- Source `Rosomaxa::optimize_network`: collect the defined node distances,
sort them descending, take the value at index `(len * 0.25) as usize` (the
float product is exact, so this is `len / 4`) as the threshold, and invoke
`network.optimize` with rebalance count 10 and the retain predicate
`is_empty || map_or(true, distance > threshold)`. -/
def Rosomaxa.optimize_network (network : Network) (best_individual : Individual) : Network :=
  let REBALANCE_COUNT : ℕ := 10
  let best_fitness := best_individual.fitness
  let distances := network.nodes.filterMap (Rosomaxa.get_node_distance best_fitness)
  let distances := sortDesc distances
  let percentile_idx := distances.length / 4
  match distances.get? percentile_idx with
  | some distance_threshold =>
    Network.optimize network REBALANCE_COUNT (fun node =>
      let is_empty := node.storage.size == 0
      is_empty ||
        (match Rosomaxa.get_node_distance best_fitness node with
         | some distance => decide (distance_threshold < distance)
         | none => true))
  | none => network

/-- Source `Rosomaxa::update_phase` (via `Population::on_generation`). -/
def Rosomaxa.update_phase (st : Rosomaxa) (statistics : Statistics) : Rosomaxa :=
  match st.phase with
  | RosomaxaPhases.Initial individuals =>
    if 4 ≤ individuals.length then
      let network := Rosomaxa.create_network st.config individuals
      { st with phase := RosomaxaPhases.Exploration 0 network [] }
    else st
  | RosomaxaPhases.Exploration _ network _ =>
    if statistics.termination_estimate < st.config.exploration_ratio then
      let time := statistics.generation
      let best_individual := st.elite.select_first
      let is_optimization_time := time % st.config.hit_memory == 0
      let network1 :=
        match best_individual, is_optimization_time with
        | some best, true => Rosomaxa.optimize_network network best
        | _, _ => network
      let r := Rosomaxa.fill_populations network1 st.random
      { st with
        random := r.2
        phase := RosomaxaPhases.Exploration time network1 r.1 }
    else { st with phase := RosomaxaPhases.Exploitation }
  | RosomaxaPhases.Exploitation => st

/-- Helper threading one archive selection per population, keeping the first
two elements of each (the `flat_map(|population| population.select().take(2))`
of the source select). -/
def selectTake2Many (populations : List Elitism) (s : Rng) : List Individual × Rng :=
  populations.foldl (fun acc p =>
    let r := p.select acc.2
    (acc.1 ++ r.1.take 2, r.2)) ([], s)

/-- Source `Rosomaxa::select` (via `Population::select`): in Exploration, two
elements from the elite selection then two from each population, truncated to
the selection size; otherwise the elite selection. -/
def Rosomaxa.select (st : Rosomaxa) (s : Rng) : List Individual × Rng :=
  match st.phase with
  | RosomaxaPhases.Exploration _ _ populations =>
    let r := st.elite.select s
    let q := selectTake2Many populations r.2
    ((r.1.take 2 ++ q.1).take st.config.selection_size, q.2)
  | _ => st.elite.select s

/-- Source `Rosomaxa::selection_phase`. -/
def Rosomaxa.selection_phase (st : Rosomaxa) : SelectionPhase :=
  match st.phase with
  | RosomaxaPhases.Initial _ => SelectionPhase.Initial
  | RosomaxaPhases.Exploration _ _ _ => SelectionPhase.Exploration
  | RosomaxaPhases.Exploitation => SelectionPhase.Exploitation

/-- Source `Rosomaxa::ranked` returns only the elite ranking; its members in
sorted order. -/
def Rosomaxa.ranked (st : Rosomaxa) : List Individual :=
  st.elite.members

namespace ExchangeSeq

/-- Source constant `MIN_JOBS`. -/
def MIN_JOBS : ℕ := 2

/-- A route, as the tour activity list with the job of each activity (jobs
are opaque identifiers here). -/
structure RouteCtx where
  activities : List ℕ
deriving DecidableEq

/-- Source `tour.job_count()`: the number of distinct jobs in the tour. -/
def RouteCtx.job_count (r : RouteCtx) : ℕ :=
  r.activities.dedup.length

/-- The solution context as seen by the operator: routes and the locked job
set. -/
structure SolutionCtx where
  routes : List RouteCtx
  locked : List ℕ
deriving DecidableEq

/-- Modelled from the spec: `uniform_int(low, high)` returns an integer in
[low, high); drawing from an empty range is a contract violation of the
underlying PRNG (a panic in the source), modelled as the error value. -/
def uniform_int_checked (lo hi : ℕ) (s : Rng) : Except Unit (ℕ × Rng) :=
  if lo < hi then Except.ok (uniform_int lo hi s) else Except.error ()

/-- The route filter of source `ExchangeSequence::explore`, written with an
explicit index counter: an index is kept iff NOT (the route has locked jobs
OR the route has at least `MIN_JOBS` jobs). -/
def route_indices_go (s : SolutionCtx) : ℕ → List RouteCtx → List ℕ
  | _, [] => []
  | i, rc :: rest =>
    let has_locked_jobs := rc.activities.any (fun j => s.locked.contains j)
    let has_enough_jobs := MIN_JOBS ≤ rc.job_count
    if has_locked_jobs || has_enough_jobs then route_indices_go s (i + 1) rest
    else i :: route_indices_go s (i + 1) rest

/-- The candidate route indices collected by source
`ExchangeSequence::explore`. -/
def route_indices (s : SolutionCtx) : List ℕ :=
  route_indices_go s 0 s.routes

/-- Source closure `get_route_idx` in `exchange_jobs`: a uniform draw into the
candidate index list, unwrapped. -/
def get_route_idx (indices : List ℕ) (s : Rng) : Except Unit (ℕ × Rng) :=
  match uniform_int_checked 0 indices.length s with
  | Except.error e => Except.error e
  | Except.ok p =>
    match indices.get? p.1 with
    | some idx => Except.ok (idx, p.2)
    | none => Except.error ()

/-- Source closure `get_sequence_size` in `exchange_jobs`:
`uniform_int(MIN_JOBS, job_count.min(max_sequence_size))`. -/
def get_sequence_size (sol : SolutionCtx) (route_idx max_sequence_size : ℕ)
    (s : Rng) : Except Unit (ℕ × Rng) :=
  match sol.routes.get? route_idx with
  | none => Except.error ()
  | some rc =>
    let job_count := min rc.job_count max_sequence_size
    uniform_int_checked MIN_JOBS job_count s

/-- The literal job-collection fold of source `extract_jobs`: push the job
when the set does not contain it, otherwise insert it into the set (note the
source never inserts on the push path). -/
def extract_fold (jobs : List ℕ) : List ℕ × List ℕ :=
  jobs.foldl (fun acc job =>
    if !acc.1.contains job then (acc.1, acc.2 ++ [job])
    else (acc.1 ++ [job], acc.2)) ([], [])

/-- Source `extract_jobs`: assert that the route has more jobs than the
requested sequence size, collect the jobs, assert the collected count equals
the job count, draw a start index in [1, job_count - sequence_size), and
remove the drawn sequence from the route. Assertion failures and empty PRNG
ranges are the error value. -/
def extract_jobs (sol : SolutionCtx) (route_idx sequence_size : ℕ) (s : Rng) :
    Except Unit (SolutionCtx × List ℕ × Rng) :=
  match sol.routes.get? route_idx with
  | none => Except.error ()
  | some rc =>
    let job_count := rc.job_count
    if job_count ≤ sequence_size then Except.error ()
    else
      let jobs := (extract_fold rc.activities).2
      if jobs.length ≠ job_count then Except.error ()
      else
        let last_index := job_count - sequence_size
        match uniform_int_checked 1 last_index s with
        | Except.error e => Except.error e
        | Except.ok p =>
          let toRemove := (List.range sequence_size).filterMap
            (fun k => jobs.get? (p.1 + k))
          let rc2 : RouteCtx := ⟨rc.activities.filter (fun a => !toRemove.contains a)⟩
          Except.ok ({ sol with routes := sol.routes.set route_idx rc2 }, jobs, p.2)

/-- Source `insert_jobs`. Modelled from the spec: the tour-insertion evaluator
is an excluded external collaborator (spec section 1), so the actual insertion
is modelled as appending the jobs to the target route, which no claim
inspects; the random start-index draw of the source is kept. -/
def insert_jobs (sol : SolutionCtx) (route_idx : ℕ) (jobs : List ℕ) (s : Rng) :
    Except Unit (SolutionCtx × Rng) :=
  match sol.routes.get? route_idx with
  | none => Except.error ()
  | some rc =>
    match uniform_int_checked 0 (rc.activities.length + 1) s with
    | Except.error e => Except.error e
    | Except.ok p =>
      let rc2 : RouteCtx := ⟨rc.activities ++ jobs⟩
      Except.ok ({ sol with routes := sol.routes.set route_idx rc2 }, p.2)

/-- Source `exchange_jobs`: choose two candidate routes and sequence sizes,
extract the sequences, and cross-insert them. -/
def exchange_jobs (sol : SolutionCtx) (indices : List ℕ) (max_sequence_size : ℕ)
    (s : Rng) : Except Unit (SolutionCtx × Rng) :=
  match get_route_idx indices s with
  | Except.error e => Except.error e
  | Except.ok p1 =>
    match get_sequence_size sol p1.1 max_sequence_size p1.2 with
    | Except.error e => Except.error e
    | Except.ok p2 =>
      match get_route_idx indices p2.2 with
      | Except.error e => Except.error e
      | Except.ok p3 =>
        match get_sequence_size sol p3.1 max_sequence_size p3.2 with
        | Except.error e => Except.error e
        | Except.ok p4 =>
          match extract_jobs sol p1.1 p2.1 p4.2 with
          | Except.error e => Except.error e
          | Except.ok q1 =>
            match extract_jobs q1.1 p3.1 p4.1 q1.2.2 with
            | Except.error e => Except.error e
            | Except.ok q2 =>
              match insert_jobs q2.1 p1.1 q2.2.1 q2.2.2 with
              | Except.error e => Except.error e
              | Except.ok r1 =>
                match insert_jobs r1.1 p3.1 q1.2.1 r1.2 with
                | Except.error e => Except.error e
                | Except.ok r2 => Except.ok r2

/-- Source `ExchangeSequence::explore`: none when the route filter yields no
candidate, otherwise the (deep-copied) solution after `exchange_jobs`; an
inner panic is the error value. -/
def explore (sol : SolutionCtx) (max_sequence_size : ℕ) (s : Rng) :
    Option (Except Unit SolutionCtx) :=
  let indices := route_indices sol
  if indices.isEmpty then none
  else some (Except.map (fun p => p.1) (exchange_jobs sol indices max_sequence_size s))

end ExchangeSeq

/-- Discrete evaluation helper: boolean equality on Ordering, lt case. -/
theorem obeq_lt_eq : (Ordering.lt == Ordering.eq) = false := by decide

/-- Discrete evaluation helper: boolean equality on Ordering, gt case. -/
theorem obeq_gt_eq : (Ordering.gt == Ordering.eq) = false := by decide

/-- Discrete evaluation helper: boolean equality on Ordering, eq case. -/
theorem obeq_eq_eq : (Ordering.eq == Ordering.eq) = true := by decide

/-- One-component fitness vectors compare exactly as their components. -/
theorem cmp_fitness_single (a b : ℚ) :
    cmp_fitness [a] [b] = cmp_component a b := by
  cases h : cmp_component a b <;> simp [cmp_fitness, h]

/-- A solution with a one-component fitness vector and zero descriptor
features, for concrete evaluations. -/
def mkInd (q : ℚ) : Individual := ⟨[q], 0, 0, 0, 0, 0⟩

/-- The default configuration with selection size 4. -/
def cfg0 : RosomaxaConfig := ⟨4, 2, 2, 1/2, 1/10, 1/4, 1/10, 1000, 9/10⟩

/-- A freshly constructed manager: empty elite archive, Initial phase. -/
def st0 : Rosomaxa := ⟨0, cfg0, Elitism.new 2 4, RosomaxaPhases.Initial []⟩

/-- C1: the claim states that `add_all(xs)` applies the add operation to every
element of `xs` in call order. The source folds with the short-circuiting Rust
`||` (`acc || self.add_individual(individual)`), so after the first admitted
element no later element is passed to add at all. Evaluated at a fresh manager
with the individuals of fitness [1] then [0]: the first is admitted, and
`add_all` leaves the second out of both the bootstrap list and the archive,
while the same two sequential `add` calls put it into both. -/
theorem C1_add_all_short_circuits :
    (Rosomaxa.add_all st0 [mkInd 1, mkInd 0]).1 = true ∧
    (Rosomaxa.add_all st0 [mkInd 1, mkInd 0]).2.phase =
      RosomaxaPhases.Initial [mkInd 1] ∧
    (Rosomaxa.add_all st0 [mkInd 1, mkInd 0]).2.elite.members = [mkInd 1] ∧
    ((Rosomaxa.add_individual (Rosomaxa.add_individual st0 (mkInd 1)).2 (mkInd 0)).2).phase =
      RosomaxaPhases.Initial [mkInd 1, mkInd 0] ∧
    ((Rosomaxa.add_individual (Rosomaxa.add_individual st0 (mkInd 1)).2 (mkInd 0)).2).elite.members =
      [mkInd 0, mkInd 1] := by
  have hc01 : cmp_component 0 1 = Ordering.lt := by norm_num [cmp_component, EPSILON]
  have hc10 : cmp_component 1 0 = Ordering.gt := by norm_num [cmp_component, EPSILON]
  have h1 : Rosomaxa.add_individual st0 (mkInd 1) =
      (true, ⟨0, cfg0, ⟨2, 4, [mkInd 1]⟩, RosomaxaPhases.Initial [mkInd 1]⟩) := by
    norm_num [Rosomaxa.add_individual, Rosomaxa.route_individual, Rosomaxa.is_improvement,
      Elitism.add, Elitism.cmp, Elitism.new, st0, cfg0, mkInd, is_same_fitness,
      cmp_fitness, hc01, hc10, fitLE, obeq_lt_eq, obeq_gt_eq, obeq_eq_eq]
  have h2 : Rosomaxa.add_individual
      (⟨0, cfg0, ⟨2, 4, [mkInd 1]⟩, RosomaxaPhases.Initial [mkInd 1]⟩ : Rosomaxa) (mkInd 0) =
      (true, ⟨0, cfg0, ⟨2, 4, [mkInd 0, mkInd 1]⟩,
        RosomaxaPhases.Initial [mkInd 1, mkInd 0]⟩) := by
    norm_num [Rosomaxa.add_individual, Rosomaxa.route_individual, Rosomaxa.is_improvement,
      Elitism.add, Elitism.cmp, Elitism.new, cfg0, mkInd, is_same_fitness,
      cmp_fitness, hc01, hc10, fitLE, List.orderedInsert]
    all_goals simp [obeq_lt_eq, obeq_gt_eq, obeq_eq_eq]
  refine ⟨?_, ?_, ?_, ?_, ?_⟩
  · simp [Rosomaxa.add_all, h1]
  · simp [Rosomaxa.add_all, h1]
  · simp [Rosomaxa.add_all, h1]
  · rw [h1, h2]
  · rw [h1, h2]

/-- Phase routing never changes the elite archive. -/
theorem route_individual_elite (st : Rosomaxa) (individual : Individual) :
    (st.route_individual individual).elite = st.elite := by
  unfold Rosomaxa.route_individual
  cases st.phase with
  | Initial individuals =>
    by_cases h : individuals.length < 4 <;> simp [h]
  | Exploration time network populations => rfl
  | Exploitation => rfl

/-- The improvement test reads only the elite archive, so it is unchanged by
phase routing. -/
theorem route_individual_is_improvement (st : Rosomaxa) (i1 i2 : Individual) :
    Rosomaxa.is_improvement (st.route_individual i1) i2 =
      Rosomaxa.is_improvement st i2 := by
  unfold Rosomaxa.is_improvement
  rw [route_individual_elite]

/-- The result bit and resulting archive of `add_individual` are governed by
the improvement test on the pre-call archive. -/
theorem add_individual_elite_eq (st : Rosomaxa) (individual : Individual) :
    (Rosomaxa.add_individual st individual).2.elite =
      (if Rosomaxa.is_improvement st individual then (st.elite.add individual).2
       else st.elite) ∧
    (Rosomaxa.add_individual st individual).1 =
      (if Rosomaxa.is_improvement st individual then (st.elite.add individual).1
       else false) := by
  unfold Rosomaxa.add_individual
  dsimp only
  rw [route_individual_is_improvement, route_individual_elite]
  by_cases h : Rosomaxa.is_improvement st individual <;>
    simp [h, route_individual_elite]

/-- C3: the improvement test accepts exactly when the archive is empty or the
individual compares not-greater than the archive best and is not same-fitness
as it; `add` attempts archive insertion exactly when the test accepts,
returning the boolean result of the archive add, and false otherwise. -/
theorem C3_improvement_gate :
    ∀ st individual,
      (Rosomaxa.is_improvement st individual = true ↔
        (st.elite.members = [] ∨
          ∃ best, st.elite.members.head? = some best ∧
            st.elite.cmp individual best ≠ Ordering.gt ∧
            is_same_fitness individual best = false)) ∧
      ((Rosomaxa.add_individual st individual).1 =
        if Rosomaxa.is_improvement st individual then (st.elite.add individual).1
        else false) ∧
      ((Rosomaxa.add_individual st individual).2.elite =
        if Rosomaxa.is_improvement st individual then (st.elite.add individual).2
        else st.elite) := by
  intro st individual
  refine ⟨?_, (add_individual_elite_eq st individual).2,
    (add_individual_elite_eq st individual).1⟩
  unfold Rosomaxa.is_improvement
  cases h : st.elite.members with
  | nil => simp [h]
  | cons best rest =>
    simp only [h, List.head?_cons]
    constructor
    · intro hacc
      right
      refine ⟨best, rfl, ?_, ?_⟩
      · intro hgt
        rw [if_neg] at hacc
        · exact Bool.false_ne_true hacc
        · simp [hgt]
      · by_cases hcmp : st.elite.cmp individual best ≠ Ordering.gt
        · rw [if_pos hcmp] at hacc
          simpa using hacc
        · rw [if_neg hcmp] at hacc
          exact absurd hacc Bool.false_ne_true
    · rintro (hnil | ⟨b, hb, hcmp, hsame⟩)
      · exact absurd hnil (List.cons_ne_nil best rest)
      · have hbb : b = best := by simpa using hb.symm
        subst hbb
        rw [if_pos hcmp]
        simpa using hsame

/-- C7: `add(s)` deep-copies and routes by phase: in Initial the copy is
appended to the bootstrap list iff it holds fewer than 4 solutions; in
Exploration the copy is wrapped as an Input whose weight vector is the five
descriptor features and stored into the network stamped with the phase time;
in Exploitation the network is untouched; in every phase the archive insertion
is then attempted under the improvement test. -/
theorem C7_add_routing :
    ∀ st individual,
      (∀ b, st.phase = RosomaxaPhases.Initial b →
        (Rosomaxa.add_individual st individual).2.phase =
          RosomaxaPhases.Initial (if b.length < 4 then b ++ [individual] else b)) ∧
      (∀ t net pops, st.phase = RosomaxaPhases.Exploration t net pops →
        (Rosomaxa.add_individual st individual).2.phase =
          RosomaxaPhases.Exploration t
            (net.store ⟨[individual.loadVariance, individual.customersDeviation,
              individual.durationMean, individual.distanceMean,
              individual.distanceGravityMean], individual⟩ t) pops) ∧
      (st.phase = RosomaxaPhases.Exploitation →
        (Rosomaxa.add_individual st individual).2.phase = RosomaxaPhases.Exploitation) ∧
      ((Rosomaxa.add_individual st individual).2.elite =
        if Rosomaxa.is_improvement st individual then (st.elite.add individual).2
        else st.elite) ∧
      ((Rosomaxa.add_individual st individual).1 =
        if Rosomaxa.is_improvement st individual then (st.elite.add individual).1
        else false) := by
  intro st individual
  have hphase : (Rosomaxa.add_individual st individual).2.phase =
      (st.route_individual individual).phase := by
    unfold Rosomaxa.add_individual
    dsimp only
    by_cases h : Rosomaxa.is_improvement (st.route_individual individual) individual <;>
      simp [h]
  refine ⟨?_, ?_, ?_, (add_individual_elite_eq st individual).1,
    (add_individual_elite_eq st individual).2⟩
  · intro b hb
    rw [hphase]
    unfold Rosomaxa.route_individual
    rw [hb]
    by_cases h : b.length < 4 <;> simp [h, hb]
  · intro t net pops hb
    rw [hphase]
    unfold Rosomaxa.route_individual
    rw [hb]
    simp [IndividualInput.new, IndividualInput.get_weights]
  · intro hb
    rw [hphase]
    unfold Rosomaxa.route_individual
    rw [hb]
    exact hb

/-- C7 witness: at a fresh Initial-phase manager the bootstrap list receives
the added individual. -/
theorem C7_add_routing_witness :
    (Rosomaxa.add_individual st0 (mkInd 1)).2.phase =
      RosomaxaPhases.Initial [mkInd 1] := by
  have h := (C7_add_routing st0 (mkInd 1)).1 [] rfl
  simpa using h

/-- C8: construction fails exactly when `elite_size < 2` or `node_size < 2` or
`selection_size < 4`; in that case the fallback is a pure elitism population
with the elite size as capacity and the same selection size, otherwise the
Rosomaxa manager itself. -/
theorem C8_construction :
    ∀ config random,
      ((Rosomaxa.new config random = Except.error ()) ↔
        (config.elite_size < 2 ∨ config.node_size < 2 ∨ config.selection_size < 4)) ∧
      (Rosomaxa.new_with_fallback config random =
        if config.elite_size < 2 ∨ config.node_size < 2 ∨ config.selection_size < 4
        then Sum.inr (Elitism.new config.elite_size config.selection_size)
        else Sum.inl { random := random, config := config,
                       elite := Elitism.new config.elite_size config.selection_size,
                       phase := RosomaxaPhases.Initial [] }) := by
  intro config random
  have hb : ((config.elite_size < 2 || config.node_size < 2 || config.selection_size < 4) = true) ↔
      (config.elite_size < 2 ∨ config.node_size < 2 ∨ config.selection_size < 4) := by
    simp [or_assoc]
  by_cases h : config.elite_size < 2 ∨ config.node_size < 2 ∨ config.selection_size < 4
  · have hcond := hb.mpr h
    constructor
    · simp only [Rosomaxa.new]
      rw [if_pos hcond]
      simp [h]
    · simp only [Rosomaxa.new_with_fallback, Rosomaxa.new]
      rw [if_pos hcond, if_pos h]
  · have hcond : ¬((config.elite_size < 2 || config.node_size < 2 || config.selection_size < 4) = true) :=
      fun hc => h (hb.mp hc)
    constructor
    · simp only [Rosomaxa.new]
      rw [if_neg hcond]
      simp [h]
    · simp only [Rosomaxa.new_with_fallback, Rosomaxa.new]
      rw [if_neg hcond, if_neg h]

/-- The phase after `add_individual` is the phase after routing alone: the
archive-insertion step never touches the phase. -/
theorem add_individual_phase_eq (st : Rosomaxa) (individual : Individual) :
    (Rosomaxa.add_individual st individual).2.phase =
      (st.route_individual individual).phase := by
  unfold Rosomaxa.add_individual
  dsimp only
  by_cases h : Rosomaxa.is_improvement (st.route_individual individual) individual <;>
    simp [h]

/-- Folding `add_all` over any list keeps an Exploitation phase. -/
theorem add_all_keeps_exploitation :
    ∀ (individuals : List Individual) (acc : Bool × Rosomaxa),
      acc.2.phase = RosomaxaPhases.Exploitation →
      (List.foldl (fun acc individual =>
        if acc.1 then acc else Rosomaxa.add_individual acc.2 individual)
        acc individuals).2.phase = RosomaxaPhases.Exploitation := by
  intro individuals
  induction individuals with
  | nil => intro acc h; simpa using h
  | cons x xs ih =>
    intro acc h
    simp only [List.foldl_cons]
    apply ih
    by_cases hacc : acc.1
    · simpa [hacc] using h
    · have hstep : (if acc.1 = true then acc else Rosomaxa.add_individual acc.2 x) =
          Rosomaxa.add_individual acc.2 x := by simp [hacc]
      rw [hstep, add_individual_phase_eq]
      unfold Rosomaxa.route_individual
      rw [h]
      exact h

/-- C2: `on_generation` moves Initial to Exploration exactly when the
bootstrap holds at least 4 solutions, building the network from the bootstrap
individuals with an emptied bootstrap (the whole phase variant is replaced);
it moves Exploration to Exploitation exactly when the termination estimate
reaches the exploration ratio; Exploitation is absorbing for every operation;
and the constructed network is seeded with the four descriptor vectors at the
four initial coordinates. -/
theorem C2_phase_transitions :
    (∀ st b statistics, st.phase = RosomaxaPhases.Initial b →
      (((Rosomaxa.update_phase st statistics).selection_phase = SelectionPhase.Exploration) ↔
        4 ≤ b.length) ∧
      (4 ≤ b.length → (Rosomaxa.update_phase st statistics).phase =
        RosomaxaPhases.Exploration 0 (Rosomaxa.create_network st.config b) [])) ∧
    (∀ st t net pops statistics, st.phase = RosomaxaPhases.Exploration t net pops →
      (((Rosomaxa.update_phase st statistics).phase = RosomaxaPhases.Exploitation) ↔
        st.config.exploration_ratio ≤ statistics.termination_estimate)) ∧
    (∀ st, st.phase = RosomaxaPhases.Exploitation →
      (∀ statistics, (Rosomaxa.update_phase st statistics).phase =
        RosomaxaPhases.Exploitation) ∧
      (∀ individual, (Rosomaxa.add_individual st individual).2.phase =
        RosomaxaPhases.Exploitation) ∧
      (∀ individuals, (Rosomaxa.add_all st individuals).2.phase =
        RosomaxaPhases.Exploitation)) ∧
    (∀ config a b c d,
      (Rosomaxa.create_network config [a, b, c, d]).nodes.map
        (fun n => (n.coord, n.weights)) =
      [((0, 0), IndividualInput.get_weights a), ((0, 1), IndividualInput.get_weights b),
       ((1, 0), IndividualInput.get_weights c), ((1, 1), IndividualInput.get_weights d)]) := by
  refine ⟨?_, ?_, ?_, ?_⟩
  · intro st b statistics hb
    unfold Rosomaxa.update_phase
    rw [hb]
    by_cases h4 : 4 ≤ b.length
    · simp [h4, Rosomaxa.selection_phase]
    · simp only [if_neg h4]
      constructor
      · constructor
        · intro hsel
          exact absurd hsel (by simp [Rosomaxa.selection_phase, hb])
        · intro hlen
          exact absurd hlen h4
      · intro hlen
        exact absurd hlen h4
  · intro st t net pops statistics hb
    unfold Rosomaxa.update_phase
    rw [hb]
    by_cases hlt : statistics.termination_estimate < st.config.exploration_ratio
    · constructor
      · intro hph
        exact absurd hph (by simp [hlt])
      · intro hge
        exact absurd hlt (not_lt.mpr hge)
    · simp only [if_neg hlt]
      simp [not_lt.mp hlt]
  · intro st hb
    refine ⟨?_, ?_, ?_⟩
    · intro statistics
      unfold Rosomaxa.update_phase
      rw [hb]
      exact hb
    · intro individual
      rw [add_individual_phase_eq]
      unfold Rosomaxa.route_individual
      rw [hb]
      exact hb
    · intro individuals
      unfold Rosomaxa.add_all
      exact add_all_keeps_exploitation individuals (false, st) hb
  · intro config a b c d
    simp [Rosomaxa.create_network, Network.new, IndividualInput.new]

/-- A manager whose bootstrap list already holds four individuals. -/
def stInit4 : Rosomaxa :=
  ⟨0, cfg0, Elitism.new 2 4, RosomaxaPhases.Initial [mkInd 1, mkInd 2, mkInd 3, mkInd 4]⟩

/-- A manager in the Exploitation phase. -/
def stExploit : Rosomaxa := ⟨0, cfg0, Elitism.new 2 4, RosomaxaPhases.Exploitation⟩

/-- A manager in the Exploration phase (network built from four bootstrap
individuals, no populations yet). -/
def stExplore : Rosomaxa :=
  ⟨0, cfg0, ⟨2, 4, [mkInd 1]⟩, RosomaxaPhases.Exploration 0
    (Rosomaxa.create_network cfg0 [mkInd 1, mkInd 2, mkInd 3, mkInd 4]) []⟩

/-- Generation statistics with a zero termination estimate. -/
def stats0 : Statistics := ⟨0, 0⟩

/-- Generation statistics whose termination estimate reaches the default
exploration ratio. -/
def statsHi : Statistics := ⟨100, 9 / 10⟩

/-- C2 witness: a four-element bootstrap transitions to Exploration; an
Exploitation manager stays in Exploitation; an Exploration manager reaching
the ratio transitions to Exploitation. -/
theorem C2_phase_transitions_witness :
    (Rosomaxa.update_phase stInit4 stats0).selection_phase = SelectionPhase.Exploration ∧
    (Rosomaxa.update_phase stExploit stats0).phase = RosomaxaPhases.Exploitation ∧
    (Rosomaxa.update_phase stExplore statsHi).phase = RosomaxaPhases.Exploitation := by
  refine ⟨?_, ?_, ?_⟩
  · exact (C2_phase_transitions.1 stInit4 [mkInd 1, mkInd 2, mkInd 3, mkInd 4]
      stats0 rfl).1.mpr (by decide)
  · exact ((C2_phase_transitions.2.2.1 stExploit rfl).1 stats0)
  · exact (C2_phase_transitions.2.1 stExplore 0
      (Rosomaxa.create_network cfg0 [mkInd 1, mkInd 2, mkInd 3, mkInd 4]) [] statsHi rfl).mpr
      (by norm_num [stExplore, cfg0, statsHi])

/-- A uniform draw in [0, hi) stays below hi when hi is positive. -/
theorem uniform_int_lt (hi : ℕ) (s : Rng) (h : 0 < hi) :
    (uniform_int 0 hi s).1 < hi := by
  unfold uniform_int
  simp only [h, if_pos]
  simpa using Nat.mod_lt _ h

/-- Drawing n times from a non-empty pool yields exactly n elements. -/
theorem drawMany_length (pool : List Individual) (h : pool ≠ []) :
    ∀ (n : ℕ) (s : Rng), ((drawMany pool n s).1).length = n := by
  intro n
  induction n with
  | zero => intro s; rfl
  | succ k ih =>
    intro s
    have hlen : 0 < pool.length := List.length_pos.mpr h
    have hi := uniform_int_lt pool.length s hlen
    have hx : pool.get? (uniform_int 0 pool.length s).1 =
        some (pool.get ⟨(uniform_int 0 pool.length s).1, hi⟩) := List.get?_eq_get hi
    unfold drawMany
    simp only [hx]
    simp [ih]

/-- The archive selection yields at most `selection_size` elements. -/
theorem elitism_select_length (e : Elitism) (s : Rng) :
    ((Elitism.select e s).1).length ≤ e.selection_size := by
  unfold Elitism.select
  cases hm : e.members with
  | nil => simp
  | cons best rest =>
    by_cases h0 : e.selection_size = 0
    · simp [h0]
    · cases hr : rest with
      | nil => simp [h0]
      | cons y ys =>
        have hne : (y :: ys) ≠ ([] : List Individual) := List.cons_ne_nil y ys
        have hdm := drawMany_length (y :: ys) hne (e.selection_size - 1) s
        dsimp only
        rw [if_neg h0, if_neg (by simp)]
        simp only [List.length_cons, hdm]
        omega

/-- When the archive is non-empty and the selection size positive, the first
selected element is the best member. -/
theorem elitism_select_head (e : Elitism) (s : Rng)
    (hm : e.members ≠ []) (hs : 1 ≤ e.selection_size) :
    ((Elitism.select e s).1).head? = e.members.head? := by
  unfold Elitism.select
  cases h : e.members with
  | nil => exact absurd h hm
  | cons best rest =>
    have h0 : ¬(e.selection_size = 0) := by omega
    dsimp only
    rw [if_neg h0]
    by_cases hr : rest.isEmpty
    · rw [if_pos hr]
      cases hsz : e.selection_size with
      | zero => exact absurd hsz h0
      | succ k => simp [List.replicate]
    · rw [if_neg hr]
      rfl

/-- C4: in Exploration, `select` yields the first two elements of the archive
selection followed by the first two of each shuffled node archive selection in
order, truncated in total to the selection size, and the first yielded element
is the archive best; in Initial and Exploitation it yields the archive
selection, which is itself bounded by the selection size. -/
theorem C4_select_shape :
    (∀ st t net pops s, st.phase = RosomaxaPhases.Exploration t net pops →
      (Rosomaxa.select st s).1 =
        ((st.elite.select s).1.take 2 ++
          (selectTake2Many pops ((st.elite.select s).2)).1).take st.config.selection_size ∧
      (st.elite.members ≠ [] → 1 ≤ st.elite.selection_size → 1 ≤ st.config.selection_size →
        ((Rosomaxa.select st s).1).head? = st.elite.members.head?)) ∧
    (∀ st s, (st.selection_phase = SelectionPhase.Initial ∨
        st.selection_phase = SelectionPhase.Exploitation) →
      (Rosomaxa.select st s).1 = (st.elite.select s).1 ∧
      ((Rosomaxa.select st s).1).length ≤ st.elite.selection_size) := by
  constructor
  · intro st t net pops s hb
    have hsel : (Rosomaxa.select st s).1 =
        ((st.elite.select s).1.take 2 ++
          (selectTake2Many pops ((st.elite.select s).2)).1).take st.config.selection_size := by
      unfold Rosomaxa.select
      rw [hb]
    refine ⟨hsel, ?_⟩
    intro hmem hs hc
    rw [hsel]
    have hhead := elitism_select_head st.elite s hmem hs
    cases hes : (st.elite.select s).1 with
    | nil =>
      rw [hes] at hhead
      cases hm2 : st.elite.members with
      | nil => exact absurd hm2 hmem
      | cons b bs =>
        rw [hm2] at hhead
        simp at hhead
    | cons a as =>
      rw [hes] at hhead
      cases hc2 : st.config.selection_size with
      | zero => omega
      | succ m =>
        rw [← hhead]
        simp [List.take_succ_cons]
  · intro st s hph
    have hsel : Rosomaxa.select st s = st.elite.select s := by
      unfold Rosomaxa.select
      cases hb : st.phase with
      | Initial b => rfl
      | Exploration t net pops =>
        simp [Rosomaxa.selection_phase, hb] at hph
      | Exploitation => rfl
    rw [hsel]
    exact ⟨rfl, elitism_select_length st.elite s⟩

/-- C4 witness: in the concrete Exploration manager the first selected element
is the archive best; in the fresh Initial manager the selection is the archive
selection. -/
theorem C4_select_shape_witness :
    ((Rosomaxa.select stExplore 0).1).head? = some (mkInd 1) ∧
    (Rosomaxa.select st0 0).1 = ((Elitism.new 2 4).select 0).1 := by
  constructor
  · have h := (C4_select_shape.1 stExplore 0
      (Rosomaxa.create_network cfg0 [mkInd 1, mkInd 2, mkInd 3, mkInd 4]) [] 0 rfl).2
      (by simp [stExplore]) (by simp [stExplore]) (by simp [stExplore, cfg0])
    rw [h]
    simp [stExplore]
  · exact ((C4_select_shape.2 st0 0 (Or.inl rfl)).1)

/-- C6: on every `on_generation` call that stays in Exploration, the phase
time becomes the statistics generation; the network is optimized exactly when
that generation is a multiple of the hit memory and the archive is non-empty;
and the populations list becomes the node storage archives of positive size
shuffled with the injected PRNG. -/
theorem C6_exploration_generation :
    ∀ st t0 net pops statistics,
      st.phase = RosomaxaPhases.Exploration t0 net pops →
      statistics.termination_estimate < st.config.exploration_ratio →
      ∃ net2,
        net2 = (match st.elite.members.head? with
          | some best =>
            if statistics.generation % st.config.hit_memory = 0
            then Rosomaxa.optimize_network net best else net
          | none => net) ∧
        (Rosomaxa.update_phase st statistics).phase =
          RosomaxaPhases.Exploration statistics.generation net2
            ((shuffle ((net2.nodes.map (fun n => n.storage)).filter
              (fun p => 0 < p.size)) st.random).1) ∧
        (Rosomaxa.update_phase st statistics).random =
          ((shuffle ((net2.nodes.map (fun n => n.storage)).filter
            (fun p => 0 < p.size)) st.random).2) := by
  intro st t0 net pops statistics hb hlt
  refine ⟨_, rfl, ?_⟩
  unfold Rosomaxa.update_phase
  rw [hb]
  dsimp only
  rw [if_pos hlt]
  cases hh : st.elite.members.head? with
  | none =>
    simp [Elitism.select_first, hh, Rosomaxa.fill_populations]
  | some best =>
    by_cases hmod : statistics.generation % st.config.hit_memory = 0
    · simp [Elitism.select_first, hh, hmod, Rosomaxa.fill_populations]
    · simp [Elitism.select_first, hh, hmod, Rosomaxa.fill_populations]

/-- C6 witness: the concrete Exploration manager below the ratio keeps the
Exploration phase with the recomputed populations. -/
theorem C6_exploration_generation_witness :
    ∃ net2,
      net2 = (match stExplore.elite.members.head? with
        | some best =>
          if stats0.generation % stExplore.config.hit_memory = 0
          then Rosomaxa.optimize_network
            (Rosomaxa.create_network cfg0 [mkInd 1, mkInd 2, mkInd 3, mkInd 4]) best
          else Rosomaxa.create_network cfg0 [mkInd 1, mkInd 2, mkInd 3, mkInd 4]
        | none => Rosomaxa.create_network cfg0 [mkInd 1, mkInd 2, mkInd 3, mkInd 4]) ∧
      (Rosomaxa.update_phase stExplore stats0).phase =
        RosomaxaPhases.Exploration stats0.generation net2
          ((shuffle ((net2.nodes.map (fun n => n.storage)).filter
            (fun p => 0 < p.size)) stExplore.random).1) ∧
      (Rosomaxa.update_phase stExplore stats0).random =
        ((shuffle ((net2.nodes.map (fun n => n.storage)).filter
          (fun p => 0 < p.size)) stExplore.random).2) :=
  C6_exploration_generation stExplore 0
    (Rosomaxa.create_network cfg0 [mkInd 1, mkInd 2, mkInd 3, mkInd 4]) [] stats0
    rfl (by norm_num [stats0, stExplore, cfg0])

/-- Floor of a quarter of a natural count, as computed by the source cast
`(len as f64 * 0.25) as usize` (the product is exact in the source). -/
theorem nat_floor_quarter (n : ℕ) :
    Nat.floor ((n : ℚ) * (25 / 100)) = n / 4 := by
  have h : (n : ℚ) * (25 / 100) = (n : ℚ) / ((4 : ℕ) : ℚ) := by push_cast; ring
  rw [h, Nat.floor_div_nat, Nat.floor_natCast]

/-- Inserting into a descending-sorted list permutes the consed list. -/
theorem insertDesc_perm (x : ℚ) (l : List ℚ) : (insertDesc x l).Perm (x :: l) := by
  induction l with
  | nil => simp [insertDesc]
  | cons y t ih =>
    unfold insertDesc
    by_cases h : y < x
    · simp [h]
    · rw [if_neg h]
      exact (ih.cons y).trans (List.Perm.swap x y t)

/-- Inserting into a descending-sorted list keeps it descending-sorted. -/
theorem insertDesc_sorted (x : ℚ) (l : List ℚ)
    (h : List.Sorted (fun a b : ℚ => b ≤ a) l) :
    List.Sorted (fun a b : ℚ => b ≤ a) (insertDesc x l) := by
  induction l with
  | nil => simp [insertDesc]
  | cons y t ih =>
    unfold insertDesc
    rw [List.sorted_cons] at h
    by_cases hyx : y < x
    · rw [if_pos hyx, List.sorted_cons]
      constructor
      · intro b hb
        rcases List.mem_cons.mp hb with hby | hbt
        · exact hby ▸ hyx.le
        · exact (h.1 b hbt).trans hyx.le
      · rw [List.sorted_cons]
        exact h
    · rw [if_neg hyx, List.sorted_cons]
      refine ⟨?_, ih h.2⟩
      intro b hb
      rcases List.mem_cons.mp ((insertDesc_perm x t).mem_iff.mp hb) with hbx | hbt
      · exact hbx ▸ le_of_not_lt hyx
      · exact h.1 b hbt

/-- The descending sort is a permutation of its input. -/
theorem sortDesc_perm (l : List ℚ) : (sortDesc l).Perm l := by
  induction l with
  | nil => rfl
  | cons x t ih =>
    unfold sortDesc
    simp only [List.foldr_cons]
    exact (insertDesc_perm x _).trans (ih.cons x)

/-- The descending sort is descending-sorted. -/
theorem sortDesc_sorted (l : List ℚ) :
    List.Sorted (fun a b : ℚ => b ≤ a) (sortDesc l) := by
  induction l with
  | nil => simp [sortDesc]
  | cons x t ih =>
    unfold sortDesc
    simp only [List.foldr_cons]
    exact insertDesc_sorted x _ ih

/-- C5: `optimize_network` collects the relative distance from the archive
best to the best stored solution of every node with non-empty storage, sorts
them descending (a descending-sorted permutation), takes the value at index
floor(count * 0.25) as the threshold, and invokes `network.optimize` with
rebalance count 10 and a keep predicate holding exactly for nodes with empty
storage or distance strictly above the threshold. -/
theorem C5_optimize_network_spec :
    ∀ (net : Network) (best : Individual) (t : ℚ),
      (sortDesc (net.nodes.filterMap (Rosomaxa.get_node_distance best.fitness))).get?
        (Nat.floor (((net.nodes.filterMap
          (Rosomaxa.get_node_distance best.fitness)).length : ℚ) * (25 / 100))) = some t →
      (Rosomaxa.optimize_network net best =
        Network.optimize net 10 (fun node => node.storage.size == 0 ||
          ((Rosomaxa.get_node_distance best.fitness node).map
            (fun d => decide (t < d))).getD false)) ∧
      List.Sorted (fun a b : ℚ => b ≤ a)
        (sortDesc (net.nodes.filterMap (Rosomaxa.get_node_distance best.fitness))) ∧
      (sortDesc (net.nodes.filterMap (Rosomaxa.get_node_distance best.fitness))).Perm
        (net.nodes.filterMap (Rosomaxa.get_node_distance best.fitness)) := by
  intro net best t ht
  refine ⟨?_, sortDesc_sorted _, sortDesc_perm _⟩
  have hlen : (sortDesc (net.nodes.filterMap
      (Rosomaxa.get_node_distance best.fitness))).length =
      (net.nodes.filterMap (Rosomaxa.get_node_distance best.fitness)).length :=
    (sortDesc_perm _).length_eq
  have hidx : Nat.floor (((net.nodes.filterMap
      (Rosomaxa.get_node_distance best.fitness)).length : ℚ) * (25 / 100)) =
      (sortDesc (net.nodes.filterMap
        (Rosomaxa.get_node_distance best.fitness))).length / 4 := by
    rw [nat_floor_quarter, hlen]
  rw [hidx] at ht
  unfold Rosomaxa.optimize_network
  dsimp only
  rw [ht]
  dsimp only
  apply congrArg
  funext node
  unfold Rosomaxa.get_node_distance
  cases hm : node.storage.members with
  | nil =>
    have hsz : (node.storage.size == 0) = true := by simp [Elitism.size, hm]
    simp [Elitism.select_first, hm, hsz]
  | cons a as =>
    have hsz : (node.storage.size == 0) = false := by simp [Elitism.size, hm]
    simp [Elitism.select_first, hm, hsz]

/-- A single grid node whose storage holds one solution of fitness [0]. -/
def node1 : NetworkNode := ⟨(0, 0), [0, 0, 0, 0, 0], 0, 0, 0, ⟨2, 2, [mkInd 0]⟩⟩

/-- A one-node network for concrete evaluations. -/
def net1 : Network := ⟨1/2, 1/10, 1/4, 1/10, 1000, 5, 2, [node1]⟩

/-- C5 witness: on the one-node network with the best solution of fitness [0]
the threshold is the only distance 0 and the optimize invocation is reached. -/
theorem C5_optimize_network_spec_witness :
    Rosomaxa.optimize_network net1 (mkInd 0) =
      Network.optimize net1 10 (fun node => node.storage.size == 0 ||
        ((Rosomaxa.get_node_distance (mkInd 0).fitness node).map
          (fun d => decide ((0 : ℚ) < d))).getD false) := by
  have hgd : Rosomaxa.get_node_distance [(0 : ℚ)] node1 = some 0 := by
    norm_num [Rosomaxa.get_node_distance, Elitism.select_first, node1, mkInd,
      relative_distance, EPSILON]
  have hds : net1.nodes.filterMap (Rosomaxa.get_node_distance (mkInd 0).fitness) =
      [(0 : ℚ)] := by
    have hfit : (mkInd 0).fitness = [(0 : ℚ)] := rfl
    rw [hfit]
    simp [net1, List.filterMap_cons, hgd]
  have ht : (sortDesc (net1.nodes.filterMap
      (Rosomaxa.get_node_distance (mkInd 0).fitness))).get?
      (Nat.floor (((net1.nodes.filterMap
        (Rosomaxa.get_node_distance (mkInd 0).fitness)).length : ℚ) * (25 / 100))) =
      some (0 : ℚ) := by
    rw [hds, nat_floor_quarter]
    rfl
  exact (C5_optimize_network_spec net1 (mkInd 0) 0 ht).1

/-- One event of the sequential driver loop: a batch insertion or a
generation notification. -/
inductive ManagerEvent where
  | addAll (individuals : List Individual)
  | onGeneration (statistics : Statistics)
deriving DecidableEq

/-- Apply one driver event to the manager. -/
def applyEvent (st : Rosomaxa) (e : ManagerEvent) : Rosomaxa :=
  match e with
  | ManagerEvent.addAll individuals => (Rosomaxa.add_all st individuals).2
  | ManagerEvent.onGeneration statistics => Rosomaxa.update_phase st statistics

/-- Run a sequence of driver events. -/
def runEvents (st : Rosomaxa) (events : List ManagerEvent) : Rosomaxa :=
  events.foldl applyEvent st

/-- The network node coordinate set of a manager (empty outside
Exploration). -/
def nodeCoords (st : Rosomaxa) : List (ℤ × ℤ) :=
  match st.phase with
  | RosomaxaPhases.Exploration _ net _ => net.nodes.map (fun n => n.coord)
  | _ => []

/-- The observable outcome of a run: archive contents, node coordinates, and
the select output at the final PRNG state. -/
def observe (st : Rosomaxa) : List Individual × List (ℤ × ℤ) × List Individual :=
  (st.elite.members, nodeCoords st, (Rosomaxa.select st st.random).1)

/-- C9: determinism. The embedding threads every stochastic choice through
the explicit PRNG state, so two managers constructed from the same
configuration and seed and driven by the same event sequence have identical
archive contents, node coordinate sets, and select outputs. -/
theorem C9_determinism :
    ∀ (config : RosomaxaConfig) (seed : Rng) (events : List ManagerEvent)
      (st1 st2 : Rosomaxa),
      Rosomaxa.new config seed = Except.ok st1 →
      Rosomaxa.new config seed = Except.ok st2 →
      observe (runEvents st1 events) = observe (runEvents st2 events) := by
  intro config seed events st1 st2 h1 h2
  have h12 : st1 = st2 := by
    have h := h1.symm.trans h2
    exact Except.ok.inj h
  rw [h12]

/-- C9 witness: two identically seeded runs over a concrete event sequence
observe the same outcome. -/
theorem C9_determinism_witness :
    observe (runEvents st0 [ManagerEvent.addAll [mkInd 1],
      ManagerEvent.onGeneration stats0]) =
    observe (runEvents st0 [ManagerEvent.addAll [mkInd 1],
      ManagerEvent.onGeneration stats0]) :=
  C9_determinism cfg0 0 [ManagerEvent.addAll [mkInd 1],
    ManagerEvent.onGeneration stats0] st0 st0 rfl rfl

namespace ExchangeSeq

/-- Every index collected by the route filter points at a route without
locked jobs and with fewer than `MIN_JOBS` jobs. -/
theorem route_indices_go_spec (s : SolutionCtx) :
    ∀ (l : List RouteCtx) (i j : ℕ),
      j ∈ route_indices_go s i l →
      ∃ rc, l.get? (j - i) = some rc ∧ rc.job_count < MIN_JOBS ∧ i ≤ j := by
  intro l
  induction l with
  | nil =>
    intro i j h
    simp [route_indices_go] at h
  | cons rc rest ih =>
    intro i j h
    unfold route_indices_go at h
    by_cases hc : (rc.activities.any (fun jb => s.locked.contains jb) ||
        decide (MIN_JOBS ≤ rc.job_count)) = true
    · rw [if_pos hc] at h
      obtain ⟨rc2, hget, hcount, hle⟩ := ih (i + 1) j h
      refine ⟨rc2, ?_, hcount, by omega⟩
      have hji : j - i = (j - (i + 1)) + 1 := by omega
      rw [hji]
      simpa using hget
    · rw [if_neg hc] at h
      have hcount : rc.job_count < MIN_JOBS := by
        simp only [Bool.or_eq_true, decide_eq_true_eq] at hc
        push_neg at hc
        omega
      rcases List.mem_cons.mp h with rfl | h2
      · exact ⟨rc, by simp, hcount, le_refl _⟩
      · obtain ⟨rc2, hget, hcount2, hle⟩ := ih (i + 1) j h2
        refine ⟨rc2, ?_, hcount2, by omega⟩
        have hji : j - i = (j - (i + 1)) + 1 := by omega
        rw [hji]
        simpa using hget

/-- Specialization to the full candidate list. -/
theorem route_indices_spec (s : SolutionCtx) (j : ℕ)
    (h : j ∈ route_indices s) :
    ∃ rc, s.routes.get? j = some rc ∧ rc.job_count < MIN_JOBS := by
  obtain ⟨rc, hget, hcount, _⟩ := route_indices_go_spec s s.routes 0 j h
  exact ⟨rc, by simpa using hget, hcount⟩

end ExchangeSeq

/-- C10: the claim says that whenever the route filter of
`ExchangeSequence::explore` yields a non-empty candidate list, every drawn
sequence size is strictly smaller than the selected route job count, the
`extract_jobs` assertions hold, and explore returns without aborting. The
filter condition is inverted in the source (`has_locked_jobs ||
has_enough_jobs → None`), so every candidate route has fewer than `MIN_JOBS`
jobs while the sequence-size draw requires at least `MIN_JOBS`: whenever
explore proceeds past the filter it aborts. -/
theorem C10_explore_aborts :
    ∀ (sol : ExchangeSeq.SolutionCtx) (max_sequence_size : ℕ) (s : Rng),
      ExchangeSeq.route_indices sol ≠ [] →
      ExchangeSeq.explore sol max_sequence_size s = some (Except.error ()) := by
  intro sol mss s hne
  have hlen : 0 < (ExchangeSeq.route_indices sol).length := List.length_pos.mpr hne
  have hu := uniform_int_lt (ExchangeSeq.route_indices sol).length s hlen
  have hget : (ExchangeSeq.route_indices sol).get?
      (uniform_int 0 (ExchangeSeq.route_indices sol).length s).1 =
      some ((ExchangeSeq.route_indices sol).get
        ⟨(uniform_int 0 (ExchangeSeq.route_indices sol).length s).1, hu⟩) :=
    List.get?_eq_get hu
  have hmem : (ExchangeSeq.route_indices sol).get
      ⟨(uniform_int 0 (ExchangeSeq.route_indices sol).length s).1, hu⟩ ∈
      ExchangeSeq.route_indices sol := List.get_mem _ _ _
  obtain ⟨rc, hrc, hcount⟩ := ExchangeSeq.route_indices_spec sol _ hmem
  have h1 : ExchangeSeq.get_route_idx (ExchangeSeq.route_indices sol) s =
      Except.ok ((ExchangeSeq.route_indices sol).get
        ⟨(uniform_int 0 (ExchangeSeq.route_indices sol).length s).1, hu⟩,
        (uniform_int 0 (ExchangeSeq.route_indices sol).length s).2) := by
    unfold ExchangeSeq.get_route_idx ExchangeSeq.uniform_int_checked
    rw [if_pos hlen]
    dsimp only
    rw [hget]
  have h2 : ExchangeSeq.get_sequence_size sol
      ((ExchangeSeq.route_indices sol).get
        ⟨(uniform_int 0 (ExchangeSeq.route_indices sol).length s).1, hu⟩) mss
      ((uniform_int 0 (ExchangeSeq.route_indices sol).length s).2) =
      Except.error () := by
    unfold ExchangeSeq.get_sequence_size ExchangeSeq.uniform_int_checked
    rw [hrc]
    dsimp only
    rw [if_neg ?hciv]
    case hciv =>
      have hminle := Nat.min_le_left rc.job_count mss
      unfold ExchangeSeq.MIN_JOBS
      unfold ExchangeSeq.MIN_JOBS at hcount
      omega
  unfold ExchangeSeq.explore
  rw [if_neg (by simpa [List.isEmpty_iff] using hne)]
  unfold ExchangeSeq.exchange_jobs
  rw [h1]
  dsimp only
  rw [h2]
  rfl

/-- A one-route solution: a single route with one unlocked job. -/
def sol1 : ExchangeSeq.SolutionCtx := ⟨[⟨[7]⟩], []⟩

/-- C10 witness: the one-route solution passes the filter (index 0 is a
candidate) and explore aborts. -/
theorem C10_explore_aborts_witness :
    ExchangeSeq.route_indices sol1 ≠ [] ∧
    ExchangeSeq.explore sol1 5 0 = some (Except.error ()) := by
  have hne : ExchangeSeq.route_indices sol1 ≠ [] := by decide
  exact ⟨hne, C10_explore_aborts sol1 5 0 hne⟩
